import Mathlib

/-!
Shallow embedding of the kinematic core of `tf_robot_learning`
(`kinematic/frame.py` and `kinematic/chain.py`), over exact rational
arithmetic.  Tensors of shape `(3,)` become `Vec3`, `(3,3)` matrices
become `Mat3`, twists become a pair of `Vec3`, and batched values become
`List`s with the pointwise semantics of the elementwise TensorFlow ops.
Where a tensor op is not in fact elementwise in the batch axis
(`Frame.inv` on a batched frame), the embedding models the TF shape
rules of the op instead.  Fallible code paths (Python `IndexError`,
`NotImplementedError`, `NameError`, TF shape errors) are embedded as
`Option` with `none` for the raising runs.
-/

namespace TfRl

/-- A 3-vector, embedding a TensorFlow tensor of shape `(3,)`. -/
structure Vec3 where
  x : ℚ
  y : ℚ
  z : ℚ
deriving DecidableEq

def Vec3.add (a b : Vec3) : Vec3 := ⟨a.x + b.x, a.y + b.y, a.z + b.z⟩

def Vec3.sub (a b : Vec3) : Vec3 := ⟨a.x - b.x, a.y - b.y, a.z - b.z⟩

def Vec3.neg (a : Vec3) : Vec3 := ⟨-a.x, -a.y, -a.z⟩

instance : Add Vec3 := ⟨Vec3.add⟩

instance : Sub Vec3 := ⟨Vec3.sub⟩

instance : Neg Vec3 := ⟨Vec3.neg⟩

instance : Zero Vec3 := ⟨⟨0, 0, 0⟩⟩

/-- Cross product, embedding `tf1.cross`. -/
def Vec3.cross (a b : Vec3) : Vec3 :=
  ⟨a.y * b.z - a.z * b.y, a.z * b.x - a.x * b.z, a.x * b.y - a.y * b.x⟩

/-- Scalar multiplication of a 3-vector. -/
def Vec3.smul (k : ℚ) (v : Vec3) : Vec3 := ⟨k * v.x, k * v.y, k * v.z⟩

/-- Componentwise division of a 3-vector by a scalar.  Division by zero is
total in `ℚ`, mirroring that the source's float division by a zero mass
does not raise (it silently yields non-finite values). -/
def Vec3.divScalar (v : Vec3) (k : ℚ) : Vec3 := ⟨v.x / k, v.y / k, v.z / k⟩

def Vec3.toList (v : Vec3) : List ℚ := [v.x, v.y, v.z]

/-- A 3x3 matrix (row-major fields), embedding a tensor of shape `(3,3)`. -/
structure Mat3 where
  a11 : ℚ
  a12 : ℚ
  a13 : ℚ
  a21 : ℚ
  a22 : ℚ
  a23 : ℚ
  a31 : ℚ
  a32 : ℚ
  a33 : ℚ
deriving DecidableEq

/-- Identity matrix, embedding `tf.eye(3)`. -/
def Mat3.idM : Mat3 := ⟨1, 0, 0, 0, 1, 0, 0, 0, 1⟩

/-- Matrix product, embedding `matmatmul`. -/
def Mat3.mul (a b : Mat3) : Mat3 :=
  ⟨a.a11 * b.a11 + a.a12 * b.a21 + a.a13 * b.a31,
   a.a11 * b.a12 + a.a12 * b.a22 + a.a13 * b.a32,
   a.a11 * b.a13 + a.a12 * b.a23 + a.a13 * b.a33,
   a.a21 * b.a11 + a.a22 * b.a21 + a.a23 * b.a31,
   a.a21 * b.a12 + a.a22 * b.a22 + a.a23 * b.a32,
   a.a21 * b.a13 + a.a22 * b.a23 + a.a23 * b.a33,
   a.a31 * b.a11 + a.a32 * b.a21 + a.a33 * b.a31,
   a.a31 * b.a12 + a.a32 * b.a22 + a.a33 * b.a32,
   a.a31 * b.a13 + a.a32 * b.a23 + a.a33 * b.a33⟩

/-- Matrix transpose, embedding `tf.transpose`. -/
def Mat3.transpose (a : Mat3) : Mat3 :=
  ⟨a.a11, a.a21, a.a31, a.a12, a.a22, a.a32, a.a13, a.a23, a.a33⟩

/-- Matrix-vector product, embedding `matvecmul`. -/
def Mat3.mulVec (a : Mat3) (v : Vec3) : Vec3 :=
  ⟨a.a11 * v.x + a.a12 * v.y + a.a13 * v.z,
   a.a21 * v.x + a.a22 * v.y + a.a23 * v.z,
   a.a31 * v.x + a.a32 * v.y + a.a33 * v.z⟩

/-- Row-major flattening, embedding `tf.reshape(m, (9,))`. -/
def Mat3.flattenRow (a : Mat3) : List ℚ :=
  [a.a11, a.a12, a.a13, a.a21, a.a22, a.a23, a.a31, a.a32, a.a33]

/-- A twist (spatial velocity), embedding the 6-vector `Twist.dx` of
`frame.py` as its two halves: `vel = dx[:3]`, `rot = dx[3:]`. -/
structure Twist where
  vel : Vec3
  rot : Vec3
deriving DecidableEq

/-- Embedding of `Twist.ref_point` (frame.py lines 86-102), rank-matched
branch: `vel = self.vel + tf1.cross(self.rot, v)`, `rot = self.rot`. -/
def Twist.refPoint (t : Twist) (v : Vec3) : Twist :=
  ⟨t.vel + t.rot.cross v, t.rot⟩

/-- Embedding of `Twist.__rmul__` with a rotation matrix on the left
(frame.py lines 104-114): `rot = matvecmul(other, self.rot)`,
`vel = matvecmul(other, self.vel)`. -/
def Twist.rmulMat (m : Mat3) (t : Twist) : Twist :=
  ⟨m.mulVec t.vel, m.mulVec t.rot⟩

/-- The raw 6-vector `Twist.dx` as a list. -/
def Twist.dxList (t : Twist) : List ℚ :=
  t.vel.toList ++ t.rot.toList

/-- Modelled from the spec: `angular_vel_tensor` lives in the missing
`utils/tf_utils.py`; per spec section 4.2 it is "the angular-velocity
tensor (3x3 skew-symmetric matrix built from the angular component)". -/
def angularVelTensor (w : Vec3) : Mat3 :=
  ⟨0, -w.z, w.y, w.z, 0, -w.x, -w.y, w.x, 0⟩

/-- Embedding of `Twist.dx_mat` (frame.py lines 44-71): concatenates the
linear velocity with the flattening of `angular_vel_tensor(rot) * m`,
transposed first when `transposed` is true (the `xmv` layout). -/
def Twist.dxMat (t : Twist) (m : Mat3) (transposed : Bool) : List ℚ :=
  let dm := (angularVelTensor t.rot).mul m
  t.vel.toList ++ (if transposed then dm.transpose.flattenRow else dm.flattenRow)

/-- A rigid-body pose, embedding `Frame` of frame.py: translation `p`
and rotation matrix `m`. -/
structure Frame where
  p : Vec3
  m : Mat3
deriving DecidableEq

/-- The default `Frame()`: `p = tf.zeros(3)`, `m = tf.eye(3)`. -/
def Frame.idF : Frame := ⟨0, Mat3.idM⟩

/-- Embedding of `Frame.inv` (frame.py lines 179-181):
`p = -matmul(m, p, transpose_a=True)`, `m = transpose(m)`. -/
def Frame.inv (f : Frame) : Frame :=
  ⟨(f.m.transpose.mulVec f.p).neg, f.m.transpose⟩

/-- Embedding of the Frame-Frame case of `Frame.__mul__` (frame.py lines
199-201): `p = matvecmul(self.m, other.p) + self.p`,
`m = matmatmul(self.m, other.m)`. -/
def Frame.comp (a b : Frame) : Frame :=
  ⟨a.m.mulVec b.p + a.p, a.m.mul b.m⟩

/-- Embedding of `Frame.xm`: position followed by row-major flattened
rotation matrix. -/
def Frame.xmList (f : Frame) : List ℚ := f.p.toList ++ f.m.flattenRow

/-- Embedding of `Frame.xmv`: position followed by the flattening of the
transposed rotation matrix. -/
def Frame.xmvList (f : Frame) : List ℚ := f.p.toList ++ f.m.transpose.flattenRow

/-- Embedding of `Frame.xq` (frame.py lines 170-176): the body is
`raise NotImplementedError`, so the serialization always fails. -/
def Frame.xqList (_ : Frame) : Option (List ℚ) := none

/-- Orthonormality of a pose's rotation matrix: `m * m^T = I`. -/
def Frame.orthonormal (f : Frame) : Prop := f.m.mul f.m.transpose = Mat3.idM

instance (f : Frame) : Decidable f.orthonormal := by
  unfold Frame.orthonormal; infer_instance

/-- The shape of a TF tensor: the list of its dimensions. -/
abbrev Shape := List Nat

/-- Shape of `tf.transpose(x)` with no `perm`: all axes reversed.  On an
unbatched rank-2 rotation this is the ordinary matrix transpose (the
values are `Mat3.transpose`); on a rank-3 batched rotation `[N,3,3]` it
yields `[3,3,N]`, not a batch of transposed rotations. -/
def transposeShape (s : Shape) : Shape := s.reverse

/-- Shape of `tf.expand_dims(x, 1)`: a new axis of size 1 inserted at
position 1. -/
def expandDims1 : Shape → Shape
  | d0 :: rest => d0 :: 1 :: rest
  | [] => [1]

/-- Shape rule of `tf.matmul(a, b, transpose_a=True)` for rank-2 and
rank-3 (batched) operands: the last two axes multiply as matrices with
`a`'s transposed, batch axes must agree, and the contracted axes must
match; any other combination is a TF shape error. -/
def matmulTShape : Shape → Shape → Option Shape
  | [k, m], [kb, n] => if k = kb then some [m, n] else none
  | [b, k, m], [bb, kb, n] => if b = bb ∧ k = kb then some [b, m, n] else none
  | _, _ => none

/-- Shape-level trace of the translation computation of `Frame.inv`
(frame.py line 180), `tf.matmul(self.m, tf.expand_dims(self.p, 1),
transpose_a=True)`, as a function of the shapes of `p` and `m`.  For an
unbatched frame (`p` of shape `[3]`, `m` of shape `[3,3]`) the shapes
pass; for a batched frame (`p` of shape `[N,3]`, `m` of shape
`[N,3,3]`) the contracted axes are 3 and 1, so the call raises and no
batched inverse is ever produced. -/
def invPShape (pShape mShape : Shape) : Option Shape :=
  matmulTShape mShape (expandDims1 pShape)

/-- Batched reference-point transport: batched twist with batched
displacement, elementwise over the shared batch axis (the rank-matched
branch of `ref_point`). -/
def Twist.refPointBatch (ts : List Twist) (vs : List Vec3) : List Twist :=
  List.zipWith Twist.refPoint ts vs

/-- Unbatched twist with batched displacement: the first branch of
`ref_point` broadcasts `rot` across the batch of `v`, so every row is
`(vel + rot x v_i, rot)`. -/
def Twist.refPointBroadcast (t : Twist) (vs : List Vec3) : List Twist :=
  vs.map (fun v => t.refPoint v)

/-- Batched twist with unbatched displacement: the second branch of
`ref_point` tiles `v` across the twist batch. -/
def Twist.refPointTile (ts : List Twist) (v : Vec3) : List Twist :=
  ts.map (fun t => t.refPoint v)

/-- Modelled from the spec: `FkLayout` lives in the missing `utils`
module.  The tags used by `chain.py` are `x` (PositionOnly), `xq`
(PositionPlusQuaternion, unimplemented), `xm`
(PositionPlusRotationMatrixFlat), `xmv`
(PositionPlusRotationMatrixFlatTransposed) and `f` (RawTransformObject). -/
inductive FkLayout where
  | x
  | xq
  | xm
  | xmv
  | f
deriving DecidableEq

/-- Result of serializing a list of poses: either flat numeric vectors or
the raw frame objects (`FkLayout.f`). -/
inductive FkOut where
  | vecs : List (List ℚ) → FkOut
  | frames : List Frame → FkOut
deriving DecidableEq

/-- Embedding of `return_frame` (chain.py lines 48-77) on a list of
frames.  For `FkLayout.xq` the comprehension evaluates `Frame.xq`, which
raises `NotImplementedError`, hence `none`. -/
def returnFrameList (ps : List Frame) (layout : FkLayout) : Option FkOut :=
  match layout with
  | .x => some (.vecs (ps.map (fun f => f.p.toList)))
  | .xq => none
  | .xm => some (.vecs (ps.map Frame.xmList))
  | .xmv => some (.vecs (ps.map Frame.xmvList))
  | .f => some (.frames ps)

/-- Modelled from the spec: `JointType` lives in the missing `joint.py`;
`NoneT` is the Fixed type, the others are the actuated kinds (spec
section 3: type in Fixed, Rotational, Prismatic). -/
inductive JointType where
  | NoneT
  | RotAxis
  | TransAxis
deriving DecidableEq

/-- Modelled from the spec: the joint record of the missing `joint.py`;
only the `type` field is read by the code under verification. -/
structure Joint where
  type : JointType

/-- Modelled from the spec: per-segment link data (`LinkSpec`): `mass`
and the transform from the segment frame to the link frame. -/
structure Link where
  mass : ℚ
  frame : Frame

/-- Modelled from the spec: a chain segment, from the missing
chain-builder module.  `pose` is `localPose(value) -> Transform` and
`twist` is `motionAxis(value, scale) -> SpatialVelocity`; `child_name`
identifies the joint for multi-chain indexing. -/
structure Segment where
  joint : Joint
  child_name : String
  link : Option Link
  pose : ℚ → Frame
  twist : ℚ → ℚ → Twist

/-- The test `seg.joint.type is not JointType.NoneT` from chain.py. -/
def Segment.isActuated (s : Segment) : Bool :=
  s.joint.type != JointType.NoneT

/-- Modelled from the spec: `segment.pose_0` (read by `Chain.jacobian`)
is the constant local pose of a Fixed segment at joint value 0. -/
def Segment.pose0 (s : Segment) : Frame := s.pose 0

/-- Embedding of the `Chain` data: an ordered list of segments. -/
structure Chain where
  segments : List Segment

/-- `self.nb_segm = len(segments)` (chain.py line 88). -/
def Chain.nbSegm (c : Chain) : Nat := c.segments.length

/-- Count of actuated segments in a segment list. -/
def nbActList (segs : List Segment) : Nat :=
  (segs.filter (fun s => s.isActuated)).length

/-- `self.nb_joint = len([seg for seg in segments if seg.joint.type !=
JointType.NoneT])` (chain.py line 89). -/
def Chain.nbJoint (c : Chain) : Nat := nbActList c.segments

/-- The actuated child names of a chain:
`[seg.child_name for seg in chain._segments if seg.joint.type != JointType.NoneT]`
(chain.py lines 446-447). -/
def Chain.names (c : Chain) : List String :=
  (c.segments.filter (fun s => s.isActuated)).map (fun s => s.child_name)

/-- `self._masses`: `[seg.link.mass for seg in segments if seg.link is not None]`
(chain.py lines 277-278). -/
def Chain.masses (c : Chain) : List ℚ :=
  (c.segments.filterMap (fun s => s.link)).map (fun l => l.mass)

/-- `self._mass`: the sum of the same list (chain.py lines 285-287). -/
def Chain.mass (c : Chain) : ℚ := c.masses.sum

/-- Embedding of the forward-kinematics loop shared by `Chain.xs`
(chain.py lines 317-333): walks the segments keeping the running pose,
consuming one joint value at each actuated segment (`q[j]`, `j += 1`) and
composing with `pose(0.)` at Fixed segments.  Returns the poses after
each segment together with the link frames (`p[-1] * seg.link.frame`
collected for segments owning a link).  A too-short `q` is the
`IndexError` of `q[j]`, hence `none`. -/
def fkAux : List Segment → Frame → List ℚ → Option (List Frame × List Frame)
  | [], _, _ => some ([], [])
  | s :: rest, base, q =>
    if s.isActuated then
      match q with
      | [] => none
      | qi :: q' =>
        let nb := base.comp (s.pose qi)
        (fkAux rest nb q').map (fun pl =>
          (nb :: pl.1,
           match s.link with
           | some l => nb.comp l.frame :: pl.2
           | none => pl.2))
    else
      let nb := base.comp (s.pose 0)
      (fkAux rest nb q).map (fun pl =>
        (nb :: pl.1,
         match s.link with
         | some l => nb.comp l.frame :: pl.2
         | none => pl.2))

/-- The joint-vector position consumed at segment `i`: the number of
actuated segments before it. -/
def qIndexAt (segs : List Segment) (i : Nat) : Nat := nbActList (segs.take i)

/-- The local pose composed at segment `i` of the forward-kinematics
loop: an actuated segment evaluated at its joint-vector component, a
Fixed segment at joint value 0. -/
def segPoseAt (segs : List Segment) (q : List ℚ) (i : Nat) : Frame :=
  match segs.get? i with
  | some s => if s.isActuated then s.pose (q.getD (qIndexAt segs i) 0) else s.pose 0
  | none => Frame.idF

/-- The list `p` built by `Chain.xs` (chain.py lines 305-333): the base
frame (identity when no floating base is given) followed by the
cumulative pose after every segment. -/
def Chain.xsPoses (c : Chain) (q : List ℚ) (fb : Option Frame) : Option (List Frame) :=
  (fkAux c.segments (fb.getD Frame.idF) q).map (fun pl => fb.getD Frame.idF :: pl.1)

/-- `Chain.xs` without link aggregation (chain.py line 367):
`return_frame(p, layout)` applied to the collected poses. -/
def Chain.xs (c : Chain) (q : List ℚ) (layout : FkLayout) (fb : Option Frame) :
    Option FkOut :=
  (c.xsPoses q fb).bind (fun ps => returnFrameList ps layout)

/-- `Chain.xs` with `get_links` (chain.py lines 335-344, 365): also
returns the link frames (headed by the base frame, as `links = [p[0]]`)
and the center of mass
`sum(masses * links_stacked[..., 1:, :3]) / self.mass`.  The embedding
keeps the link positions as `Vec3`; the division is the source's
unchecked division by the total mass. -/
def Chain.xsLinks (c : Chain) (q : List ℚ) (fb : Option Frame) :
    Option (List Frame × List Frame × Vec3) :=
  (fkAux c.segments (fb.getD Frame.idF) q).map (fun pl =>
    let base := fb.getD Frame.idF
    let links := base :: pl.2
    let weighted := List.zipWith (fun mss f => Vec3.smul mss f.p) c.masses (links.drop 1)
    let com := (weighted.foldl Vec3.add 0).divScalar c.mass
    (base :: pl.1, links, com))

/-- Embedding of the loop of `Chain.ee_frame` over segments 1 and up
(chain.py lines 259-269): actuated segments consume the next joint value,
Fixed segments compose with `pose(0.)`. -/
def eeAux : List Segment → Frame → List ℚ → Option Frame
  | [], acc, _ => some acc
  | s :: rest, acc, q =>
    if s.isActuated then
      match q with
      | [] => none
      | qi :: q' => eeAux rest (acc.comp (s.pose qi)) q'
    else
      eeAux rest (acc.comp (s.pose 0)) q

/-- Embedding of `Chain.ee_frame` (chain.py lines 239-272): the running
pose is seeded with `segments[0].pose(q[0])` unconditionally (`j` starts
at 1), then the loop runs over `range(1, nb_segm - n)`.  An empty `q` or
an empty segment list is the `IndexError` of `q[0]` / `segments[0]`. -/
def Chain.eeFrame (c : Chain) (q : List ℚ) (n : Nat) : Option Frame :=
  match q with
  | [] => none
  | q0 :: qrest =>
    match c.segments with
    | [] => none
    | s0 :: srest =>
      eeAux (srest.take (c.nbSegm - n - 1)) (s0.pose q0) qrest

/-- Embedding of the column-accumulation loop of `Chain.jacobian`
(chain.py lines 396-421).  State: running pose `T`, remaining joint
values `q` (the sequential reads `q[j]`, `j += 1`) and the accumulated
columns `jac`.  Per segment: `total = T * pose`, at an actuated segment
`t_tmp = T.m * twist(q_j, 1.0)`; the existing columns are transported by
`ref_point(total.p - T.p)` (guarded by `if len(jac)` in the source);
`t_tmp` is appended only at actuated segments; `T = total`.  Returns the
final columns and the final `total`.  Exhausting `q` is the `IndexError`
of `q[j]`. -/
def jacLoop : List Segment → Frame → List ℚ → List Twist → Option (List Twist × Frame)
  | [], t, _, jac => some (jac, t)
  | s :: rest, t, q, jac =>
    if s.isActuated then
      match q with
      | [] => none
      | qi :: q' =>
        let total := t.comp (s.pose qi)
        let tTmp := Twist.rmulMat t.m (s.twist qi 1)
        let jac' := if jac.isEmpty then jac
                    else jac.map (fun col => col.refPoint (total.p - t.p))
        jacLoop rest total q' (jac' ++ [tTmp])
    else
      let total := t.comp s.pose0
      let jac' := if jac.isEmpty then jac
                  else jac.map (fun col => col.refPoint (total.p - t.p))
      jacLoop rest total q jac'

/-- Modelled from the spec (section 4.2): `changeReferencePoint(T,
displacement)`: `linear' = linear + angular x displacement`,
`angular' = angular`. -/
def changeReferencePoint (t : Twist) (displacement : Vec3) : Twist :=
  ⟨t.vel + t.rot.cross displacement, t.rot⟩

/-- Modelled from the spec (section 4.2): `rotateBy(R, T)`:
`linear' = R linear`, `angular' = R angular`. -/
def rotateBy (r : Mat3) (t : Twist) : Twist :=
  ⟨r.mulVec t.vel, r.mulVec t.rot⟩

/-- Modelled from the spec (section 4.4, steps 1-5): the Jacobian
propagation loop as the spec words it.  At each segment the new
cumulative pose is `total = compose(T, localPose)`; before appending,
every existing column is transported by `changeReferencePoint` with
displacement `total.translation - T.translation`; at an actuated segment
the column `rotateBy(T.rotation, motionAxis(q_i, 1.0))` is appended. -/
def jacLoopSpec : List Segment → Frame → List ℚ → List Twist → Option (List Twist × Frame)
  | [], t, _, jac => some (jac, t)
  | s :: rest, t, q, jac =>
    if s.isActuated then
      match q with
      | [] => none
      | qi :: q' =>
        let total := t.comp (s.pose qi)
        let transported := jac.map (fun col => changeReferencePoint col (total.p - t.p))
        let newCol := rotateBy t.m (s.twist qi 1)
        jacLoopSpec rest total q' (transported ++ [newCol])
    else
      let total := t.comp (s.pose 0)
      let transported := jac.map (fun col => changeReferencePoint col (total.p - t.p))
      jacLoopSpec rest total q transported

/-- Embedding of `Chain.jacobian` (chain.py lines 369-430) as the list of
matrix columns of the returned `[batch, rows, nb_joint]` tensor (the
transpose by `(0, 2, 1)` makes the stacked per-joint vectors the matrix
columns; column `j` of the result is the serialized `jac[j]`).  The loop
runs over `range(nb_segm - n)`.  An empty `jac` makes
`stack_batch([])` evaluate `vecs[0]`, an `IndexError`; layout `f`
reaches the `else: raise NotImplementedError`.  Layout `xq` is served by
the `elif layout in [FkLayout.xq]` branch, which returns the raw stacked
`dx` vectors without raising; layout `x` additionally slices the first 3
rows. -/
def Chain.jacobianCols (c : Chain) (q : List ℚ) (n : Nat) (layout : FkLayout)
    (fb : Option Frame) : Option (List (List ℚ)) :=
  (jacLoop (c.segments.take (c.nbSegm - n)) (fb.getD Frame.idF) q []).bind
    (fun jt =>
      match jt.1 with
      | [] => none
      | _ =>
        match layout with
        | .xm => some (jt.1.map (fun t => t.dxMat jt.2.m false))
        | .xmv => some (jt.1.map (fun t => t.dxMat jt.2.m true))
        | .xq => some (jt.1.map Twist.dxList)
        | .x => some (jt.1.map (fun t => t.dxList.take 3))
        | .f => none)

/-- A `ChainDict` is an ordered association of names to chains
(`OrderedDict` iteration order is insertion order). -/
abbrev ChainDict := List (String × Chain)

/-- Position of the first occurrence of a name in a list (Python
`list.index`; for an absent name the source raises, the embedding
returns the length, which every use below rules out by membership). -/
def idxOf (nm : String) : List String → Nat
  | [] => 0
  | a :: rest => if a = nm then 0 else idxOf nm rest + 1

/-- Embedding of the `_unique_names` construction
(chain.py lines 442-452): scan the chains in order; for each, append the
actuated child names not already recorded.  The membership test compares
against the names of the previous chains only (the Python comprehension
reads `self._unique_names` before the `+=` assigns it), so duplicates
inside a single chain are kept. -/
def ChainDict.uniqueNames (d : ChainDict) : List String :=
  d.foldl (fun acc nc => acc ++ nc.2.names.filter (fun nm => decide (¬ nm ∈ acc))) []

/-- `self._nb_joints = len(self._unique_names)` (chain.py line 452). -/
def ChainDict.nbJoint (d : ChainDict) : Nat := d.uniqueNames.length

/-- The per-chain index list `idx_chain` of `ChainDict.jacobian` and
`ChainDict.xs` (chain.py lines 511-516 and 562-567):
`[unique_names.index(seg.child_name) for seg in chain._segments if
seg.joint.type != JointType.NoneT]`. -/
def ChainDict.idxList (d : ChainDict) (c : Chain) : List Nat :=
  c.names.map (fun nm => idxOf nm d.uniqueNames)

/-- Reads of a shared joint vector at a list of indices: `q[:, i]` for
each `i`, failing on an out-of-range index. -/
def getAll (q : List ℚ) : List Nat → Option (List ℚ)
  | [] => some []
  | i :: rest =>
    match q.get? i, getAll q rest with
    | some v, some vs => some (v :: vs)
    | _, _ => none

/-- The per-chain sub-vector `q_chains[name]` (chain.py lines 518-521 and
569-572), shared verbatim by `ChainDict.jacobian` and `ChainDict.xs`. -/
def ChainDict.qChain (d : ChainDict) (c : Chain) (q : List ℚ) : Option (List ℚ) :=
  getAll q (d.idxList c)

/-- Option-valued map over a list, failing if any element fails. -/
def mapOpt : List α → (α → Option β) → Option (List β)
  | [], _ => some []
  | a :: l, f =>
    match f a, mapOpt l f with
    | some b, some bs => some (b :: bs)
    | _, _ => none

/-- A list of zeros shaped like the given column
(`tf.zeros_like(jac[:, :, 0])`, chain.py line 535). -/
def zerosLike (col : List ℚ) : List ℚ := col.map (fun _ => 0)

/-- The assembly loop of `ChainDict.jacobian` (chain.py lines 534-544):
start from `nb_joint` zero columns and overwrite position `i` with the
chain's own column `j` for each `(j, i)` in the enumerated index list. -/
def assembleCols : List (List ℚ) → List (Nat × List ℚ) → List (List ℚ)
  | acc, [] => acc
  | acc, (i, col) :: rest => assembleCols (acc.set i col) rest

/-- The zero-padded full-width Jacobian of one chain
(`xs_chains_aug[name]`, chain.py lines 530-544). -/
def ChainDict.assembledJac (d : ChainDict) (c : Chain) (cols : List (List ℚ)) :
    List (List ℚ) :=
  assembleCols (List.replicate d.nbJoint (zerosLike (cols.headD [])))
    ((d.idxList c).zip cols)

/-- Embedding of `ChainDict.jacobian` with no chain name selected
(chain.py lines 508-546): per chain, slice the sub-vector, delegate to
`Chain.jacobian` (default layout `xm`), then zero-fill to the full
width. -/
def ChainDict.jacobianAll (d : ChainDict) (q : List ℚ) (n : Nat) (fb : Option Frame) :
    Option (List (String × List (List ℚ))) :=
  mapOpt d (fun nc =>
    (d.qChain nc.2 q).bind (fun qs =>
      (Chain.jacobianCols nc.2 qs n FkLayout.xm fb).map (fun cols =>
        (nc.1, d.assembledJac nc.2 cols))))

/-- Embedding of `ChainDict.xs` with no chain name selected and no link
aggregation (chain.py lines 552-582): per chain, slice the sub-vector
with the same index lists and delegate to `Chain.xs`. -/
def ChainDict.xsAll (d : ChainDict) (q : List ℚ) (layout : FkLayout)
    (fb : Option Frame) : Option (List (String × FkOut)) :=
  mapOpt d (fun nc =>
    (d.qChain nc.2 q).bind (fun qs =>
      (Chain.xs nc.2 qs layout fb).map (fun res => (nc.1, res))))

/-- A concrete pose with an orthonormal, non-identity rotation (rotation
by a quarter turn about z, translation (1,2,3)). -/
def frameA0 : Frame := ⟨⟨1, 2, 3⟩, ⟨0, -1, 0, 1, 0, 0, 0, 0, 1⟩⟩

/-- A concrete actuated segment: prismatic-style local pose along x and a
unit angular motion axis about z. -/
def segRot : Segment :=
  { joint := ⟨JointType.RotAxis⟩
    child_name := "j1"
    link := none
    pose := fun v => ⟨⟨v, 0, 0⟩, Mat3.idM⟩
    twist := fun _ s => ⟨⟨0, 0, 0⟩, ⟨0, 0, s⟩⟩ }

/-- A one-segment chain with a single actuated joint. -/
def chainOne : Chain := ⟨[segRot]⟩

/-- A concrete Fixed segment whose local pose is the constant unit
translation along z (a fixed joint's pose ignores the joint value). -/
def segFixB : Segment :=
  { joint := ⟨JointType.NoneT⟩
    child_name := "fb"
    link := none
    pose := fun _ => ⟨⟨0, 0, 1⟩, Mat3.idM⟩
    twist := fun _ _ => ⟨0, 0⟩ }

/-- A chain whose first segment is Fixed and whose second is actuated:
`nb_joint = 1`. -/
def chainBug : Chain := ⟨[segFixB, segRot]⟩

/-- A concrete Fixed segment with identity pose. -/
def segFix : Segment :=
  { joint := ⟨JointType.NoneT⟩
    child_name := "f1"
    link := none
    pose := fun _ => Frame.idF
    twist := fun _ _ => ⟨0, 0⟩ }

/-- A Fixed-only chain. -/
def chainFixed : Chain := ⟨[segFix]⟩

/-- A concrete actuated segment carrying a link of mass zero. -/
def segZeroMass : Segment :=
  { joint := ⟨JointType.RotAxis⟩
    child_name := "zm"
    link := some ⟨0, Frame.idF⟩
    pose := fun v => ⟨⟨v, 0, 0⟩, Mat3.idM⟩
    twist := fun _ s => ⟨⟨s, 0, 0⟩, ⟨0, 0, 0⟩⟩ }

/-- A chain whose total link mass is zero. -/
def chainZeroMass : Chain := ⟨[segZeroMass]⟩

/-- A concrete actuated segment with the given joint name. -/
def segNamed (nm : String) : Segment :=
  { joint := ⟨JointType.RotAxis⟩
    child_name := nm
    link := none
    pose := fun v => ⟨⟨v, 0, 0⟩, Mat3.idM⟩
    twist := fun _ s => ⟨⟨s, 0, 0⟩, ⟨0, 0, 0⟩⟩ }

/-- A two-joint chain with joint names `a`, `b`. -/
def chainAB : Chain := ⟨[segNamed "a", segNamed "b"]⟩

/-- A two-joint chain with joint names `b`, `c`: shares exactly the
joint name `b` with `chainAB`. -/
def chainBC : Chain := ⟨[segNamed "b", segNamed "c"]⟩

/-- The two-chain dictionary sharing exactly one joint name. -/
def dictShared : ChainDict := [("u", chainAB), ("v", chainBC)]

theorem Vec3.add_def (a b : Vec3) : a + b = ⟨a.x + b.x, a.y + b.y, a.z + b.z⟩ := rfl

theorem Vec3.sub_def (a b : Vec3) : a - b = ⟨a.x - b.x, a.y - b.y, a.z - b.z⟩ := rfl

theorem Vec3.zero_def : (0 : Vec3) = ⟨0, 0, 0⟩ := rfl

theorem Twist.refPoint_refPoint (t : Twist) (d1 d2 : Vec3) :
    (t.refPoint d1).refPoint d2 = t.refPoint (d1 + d2) := by
  obtain ⟨⟨vx, vy, vz⟩, ⟨rx, ry, rz⟩⟩ := t
  obtain ⟨ax, ay, az⟩ := d1
  obtain ⟨bx, by', bz⟩ := d2
  simp only [Twist.refPoint, Vec3.cross, Vec3.add_def, Twist.mk.injEq, Vec3.mk.injEq]
  exact ⟨⟨by ring, by ring, by ring⟩, trivial⟩

/-- C9: reference-point transport is additive in the displacement: two
`ref_point` transports compose into one with the summed displacement, for
the unbatched case and for each rank-matched batched combination
(batched twist with batched displacements, unbatched twist broadcast over
batched displacements, batched twist with tiled unbatched displacements);
the angular component is unchanged throughout. -/
theorem ref_point_transport_additive :
    (∀ (t : Twist) (d1 d2 : Vec3),
      (t.refPoint d1).refPoint d2 = t.refPoint (d1 + d2)) ∧
    (∀ (ts : List Twist) (ds1 ds2 : List Vec3),
      Twist.refPointBatch (Twist.refPointBatch ts ds1) ds2 =
        Twist.refPointBatch ts (List.zipWith (· + ·) ds1 ds2)) ∧
    (∀ (t : Twist) (ds1 ds2 : List Vec3),
      Twist.refPointBatch (t.refPointBroadcast ds1) ds2 =
        t.refPointBroadcast (List.zipWith (· + ·) ds1 ds2)) ∧
    (∀ (ts : List Twist) (d1 d2 : Vec3),
      Twist.refPointTile (Twist.refPointTile ts d1) d2 =
        Twist.refPointTile ts (d1 + d2)) := by
  refine ⟨Twist.refPoint_refPoint, ?_, ?_, ?_⟩
  · intro ts
    induction ts with
    | nil => intro ds1 ds2; rfl
    | cons t ts ih =>
      intro ds1 ds2
      cases ds1 with
      | nil => rfl
      | cons a ds1 =>
        cases ds2 with
        | nil => rfl
        | cons b ds2 =>
          simp only [Twist.refPointBatch, List.zipWith] at *
          exact congrArg₂ (· :: ·) (Twist.refPoint_refPoint t a b) (ih ds1 ds2)
  · intro t ds1
    induction ds1 with
    | nil => intro ds2; rfl
    | cons a ds1 ih =>
      intro ds2
      cases ds2 with
      | nil => rfl
      | cons b ds2 =>
        simp only [Twist.refPointBroadcast, Twist.refPointBatch, List.zipWith,
          List.map] at *
        exact congrArg₂ (· :: ·) (Twist.refPoint_refPoint t a b) (ih ds2)
  · intro ts d1 d2
    induction ts with
    | nil => rfl
    | cons t ts ih =>
      simp only [Twist.refPointTile, List.map] at *
      exact congrArg₂ (· :: ·) (Twist.refPoint_refPoint t d1 d2) ih

theorem Frame.comp_inv_self (a : Frame) (h : a.orthonormal) :
    a.comp a.inv = Frame.idF := by
  obtain ⟨⟨px, py, pz⟩, ⟨m11, m12, m13, m21, m22, m23, m31, m32, m33⟩⟩ := a
  simp only [Frame.orthonormal, Mat3.mul, Mat3.transpose, Mat3.idM,
    Mat3.mk.injEq] at h
  obtain ⟨h11, h12, h13, h21, h22, h23, h31, h32, h33⟩ := h
  simp only [Frame.comp, Frame.inv, Frame.idF, Mat3.mul, Mat3.transpose,
    Mat3.mulVec, Mat3.idM, Vec3.neg, Vec3.add_def, Vec3.zero_def, Frame.mk.injEq,
    Mat3.mk.injEq, Vec3.mk.injEq]
  refine ⟨⟨?_, ?_, ?_⟩, h11, h12, h13, h21, h22, h23, h31, h32, h33⟩
  · linear_combination (-px) * h11 - py * h12 - pz * h13
  · linear_combination (-px) * h21 - py * h22 - pz * h23
  · linear_combination (-px) * h31 - py * h32 - pz * h33

/-- C2 counterexample: for a batched pose (batch size 2, so `p` has
shape `[2,3]` and `m` has shape `[2,3,3]`), the translation computation
of `Frame.inv` fails TF's matmul shape check (contracted axes 3 and 1),
while the unbatched shapes pass; moreover the no-perm `tf.transpose`
sends the batched rotation's shape `[2,3,3]` to `[3,3,2]` instead of
transposing each batch member.  So `A.inv()` raises for batched `A` and
`A * A.inv()` is never an identity batch, refuting the claim's batched
half. -/
theorem batched_inverse_shape_mismatch :
    invPShape [2, 3] [2, 3, 3] = none ∧
    invPShape [3] [3, 3] = some [3, 1] ∧
    transposeShape [2, 3, 3] = [3, 3, 2] := ⟨rfl, rfl, rfl⟩

/-- C2 amended: for every unbatched pose whose rotation is orthonormal,
composing it with its inverse yields the identity pose exactly; for a
batched pose of any batch size, the shape-incompatible
`tf.matmul(m, expand_dims(p, 1), transpose_a=True)` inside `Frame.inv`
raises, so no batched inverse (and hence no batched composition with
it) is computed at all. -/
theorem compose_with_inverse_identity_unbatched :
    (∀ a : Frame, a.orthonormal → a.comp a.inv = Frame.idF) ∧
    (∀ n : Nat, invPShape [n, 3] [n, 3, 3] = none) := by
  refine ⟨Frame.comp_inv_self, ?_⟩
  intro n
  simp [invPShape, expandDims1, matmulTShape]

/-- Witness for C2 at a concrete rotation (quarter turn about z with
translation (1,2,3)) and a concrete batch size 2. -/
theorem compose_with_inverse_identity_unbatched_witness :
    frameA0.comp frameA0.inv = Frame.idF ∧
    invPShape [2, 3] [2, 3, 3] = none := by
  have horth : frameA0.orthonormal := by
    simp [Frame.orthonormal, frameA0, Mat3.mul, Mat3.transpose, Mat3.idM]
  exact ⟨compose_with_inverse_identity_unbatched.1 frameA0 horth,
    compose_with_inverse_identity_unbatched.2 2⟩

theorem refPoint_eq_changeReferencePoint (t : Twist) (v : Vec3) :
    t.refPoint v = changeReferencePoint t v := rfl

theorem rmulMat_eq_rotateBy (m : Mat3) (t : Twist) :
    Twist.rmulMat m t = rotateBy m t := rfl

theorem guarded_map_refPoint (jac : List Twist) (d : Vec3) :
    (if jac.isEmpty then jac
     else jac.map (fun col => col.refPoint d)) =
      jac.map (fun col => changeReferencePoint col d) := by
  cases jac with
  | nil => rfl
  | cons t ts => rfl

/-- C1: the column-accumulation loop of `Chain.jacobian` coincides, on
every state (segment list, running pose `T`, remaining joint values,
accumulated columns), with the spec's description of the propagation
algorithm: per segment the cumulative pose advances to `total`, every
previously accumulated column is transported by `changeReferencePoint`
with displacement `total.p - T.p` before anything is appended, and at an
actuated segment the appended column is `motionAxis(q_i, 1.0)` rotated by
`T`'s rotation. -/
theorem jacobian_loop_refines_spec (segs : List Segment) (t : Frame)
    (q : List ℚ) (jac : List Twist) :
    jacLoop segs t q jac = jacLoopSpec segs t q jac := by
  induction segs generalizing t q jac with
  | nil => rfl
  | cons s rest ih =>
    simp only [jacLoop, jacLoopSpec]
    cases hb : s.isActuated with
    | false =>
      simp only [Bool.false_eq_true, if_false, guarded_map_refPoint, Segment.pose0]
      exact ih _ _ _
    | true =>
      simp only [if_true]
      cases q with
      | nil => rfl
      | cons qi q' =>
        simp only [guarded_map_refPoint, rmulMat_eq_rotateBy]
        exact ih _ _ _

/-- C5 counterexample: on a concrete one-joint chain, `Chain.jacobian`
with the quaternion layout `xq` returns a value (the stacked raw twist
6-vectors) instead of raising a not-implemented error. -/
theorem jacobian_xq_returns_value :
    (Chain.jacobianCols chainOne [1] 0 FkLayout.xq none).isSome = true := rfl

/-- C5 amended: requesting the quaternion layout from pose serialization
(`Frame.xq`) or from `Chain.xs` always raises; but `Chain.jacobian` with
layout `xq` never raises on account of the layout: it succeeds exactly
when the supported `xm` layout would, returning the raw stacked twist
components instead of signalling not-implemented. -/
theorem xq_layout_raises_only_on_pose_paths :
    (∀ (c : Chain) (q : List ℚ) (fb : Option Frame),
      Chain.xs c q FkLayout.xq fb = none) ∧
    (∀ f : Frame, f.xqList = none) ∧
    (∀ (c : Chain) (q : List ℚ) (n : Nat) (fb : Option Frame),
      (Chain.jacobianCols c q n FkLayout.xq fb).isSome =
        (Chain.jacobianCols c q n FkLayout.xm fb).isSome) := by
  refine ⟨?_, fun _ => rfl, ?_⟩
  · intro c q fb
    unfold Chain.xs
    cases c.xsPoses q fb <;> rfl
  · intro c q n fb
    unfold Chain.jacobianCols
    cases hl : jacLoop (c.segments.take (c.nbSegm - n)) (fb.getD Frame.idF) q [] with
    | none => rfl
    | some jt =>
      obtain ⟨jac, tot⟩ := jt
      cases jac <;> rfl

/-- C6: on the concrete chain `[Fixed, actuated]` with the valid joint
vector `[1]` (its length equals `nb_joint = 1`), `Chain.xs` succeeds and
consumes the single joint value at the actuated second segment, while
`Chain.ee_frame` passes `q[0]` to the Fixed first segment and then
raises reading `q[1]` for the actuated segment: forward kinematics via
`ee_frame` does not consume joint values only at non-Fixed segments. -/
theorem ee_frame_consumes_q0_at_fixed_first_segment :
    Chain.nbJoint chainBug = 1 ∧
    Chain.eeFrame chainBug [1] 0 = none ∧
    Chain.xsPoses chainBug [1] none =
      some [Frame.idF, ⟨⟨0, 0, 1⟩, Mat3.idM⟩, ⟨⟨1, 0, 1⟩, Mat3.idM⟩] := by
  refine ⟨rfl, rfl, ?_⟩
  simp [Chain.xsPoses, chainBug, segFixB, segRot, fkAux, Segment.isActuated,
    Frame.idF, Frame.comp, Mat3.mul, Mat3.mulVec, Mat3.idM, Vec3.add_def,
    Vec3.zero_def]

/-- C7: on a concrete chain whose only link has mass zero, `Chain.xs`
with link aggregation reaches the center-of-mass division with total
mass 0 and still returns a value: the degenerate mass is not detected
and no error is surfaced. -/
theorem zero_mass_com_division_is_silent :
    Chain.mass chainZeroMass = 0 ∧
    (Chain.xsLinks chainZeroMass [1] none).isSome = true := by
  refine ⟨?_, rfl⟩
  simp [Chain.mass, Chain.masses, chainZeroMass, segZeroMass]

/-- C8: on a concrete Fixed-only chain the derived `nb_joint` is 0, but
`Chain.jacobian` does not return a 0-column matrix: the accumulated
column list is empty and `stack_batch([])` evaluates `vecs[0]`, an
`IndexError`, so the call fails. -/
theorem fixed_only_chain_jacobian_crashes :
    Chain.nbJoint chainFixed = 0 ∧
    Chain.jacobianCols chainFixed [] 0 FkLayout.xm none = none := ⟨rfl, rfl⟩

theorem nbActList_cons (s : Segment) (rest : List Segment) :
    nbActList (s :: rest) =
      if s.isActuated then nbActList rest + 1 else nbActList rest := by
  cases hb : s.isActuated <;> simp [nbActList, List.filter_cons, hb]

theorem segPoseAt_cons_actuated (s : Segment) (rest : List Segment)
    (hb : s.isActuated = true) (qi : ℚ) (q' : List ℚ) (j : Nat) :
    segPoseAt (s :: rest) (qi :: q') (j + 1) = segPoseAt rest q' j := by
  have hq : qIndexAt (s :: rest) (j + 1) = qIndexAt rest j + 1 := by
    simp [qIndexAt, List.take_succ_cons, nbActList_cons, hb]
  simp only [segPoseAt, List.get?_cons_succ, hq]
  cases rest.get? j with
  | none => rfl
  | some sj => simp [List.getD_cons_succ]

theorem segPoseAt_cons_fixed (s : Segment) (rest : List Segment)
    (hb : s.isActuated = false) (q : List ℚ) (j : Nat) :
    segPoseAt (s :: rest) q (j + 1) = segPoseAt rest q j := by
  have hq : qIndexAt (s :: rest) (j + 1) = qIndexAt rest j := by
    simp [qIndexAt, List.take_succ_cons, nbActList_cons, hb]
  simp only [segPoseAt, List.get?_cons_succ, hq]

theorem fkAux_spec (segs : List Segment) :
    ∀ (base : Frame) (q : List ℚ), nbActList segs ≤ q.length →
    ∃ pl : List Frame × List Frame, fkAux segs base q = some pl ∧
      pl.1.length = segs.length ∧
      ∀ i, i < segs.length →
        pl.1.get? i =
          some (((base :: pl.1).getD i Frame.idF).comp (segPoseAt segs q i)) := by
  induction segs with
  | nil =>
    intro base q _
    exact ⟨([], []), rfl, rfl, fun i hi => absurd hi (Nat.not_lt_zero i)⟩
  | cons s rest ih =>
    intro base q h
    rw [nbActList_cons] at h
    cases hb : s.isActuated with
    | true =>
      rw [hb, if_pos rfl] at h
      cases q with
      | nil => exact absurd h (by simp)
      | cons qi q' =>
        have h' : nbActList rest ≤ q'.length := by
          simp only [List.length_cons] at h; omega
        obtain ⟨pl, hfk, hlen, hrec⟩ := ih (base.comp (s.pose qi)) q' h'
        simp only [fkAux, hb, if_true, hfk, Option.map_some']
        refine ⟨_, rfl, by simp [hlen], ?_⟩
        intro i hi
        cases i with
        | zero =>
          simp [segPoseAt, qIndexAt, nbActList, hb]
        | succ j =>
          have hj : j < rest.length := by simpa using hi
          have hr := hrec j hj
          rw [segPoseAt_cons_actuated s rest hb qi q' j]
          simpa using hr
    | false =>
      rw [hb, if_neg (by simp)] at h
      obtain ⟨pl, hfk, hlen, hrec⟩ := ih (base.comp (s.pose 0)) q h
      simp only [fkAux, hb, Bool.false_eq_true, if_false, hfk, Option.map_some']
      refine ⟨_, rfl, by simp [hlen], ?_⟩
      intro i hi
      cases i with
      | zero =>
        simp [segPoseAt, qIndexAt, nbActList, hb]
      | succ j =>
        have hj : j < rest.length := by simpa using hi
        have hr := hrec j hj
        rw [segPoseAt_cons_fixed s rest hb q j]
        simpa using hr

/-- C10: for every chain and every joint vector long enough for the
actuated segments, `Chain.xs` collects exactly `nb_segm + 1` poses: the
pose at index 0 is the base frame (identity when no floating base is
supplied, otherwise the given one) and the pose at index `i + 1` is the
pose at index `i` composed with segment `i`'s local pose (at its joint
component for actuated segments, at 0 for Fixed ones). -/
theorem xs_returns_base_and_cumulative_poses (c : Chain) (q : List ℚ)
    (fb : Option Frame) (h : nbActList c.segments ≤ q.length) :
    ∃ ps, Chain.xsPoses c q fb = some ps ∧
      ps.length = c.nbSegm + 1 ∧
      ps.get? 0 = some (fb.getD Frame.idF) ∧
      ∀ i, i < c.nbSegm → ps.get? (i + 1) =
        some ((ps.getD i Frame.idF).comp (segPoseAt c.segments q i)) := by
  obtain ⟨pl, hfk, hlen, hrec⟩ := fkAux_spec c.segments (fb.getD Frame.idF) q h
  refine ⟨fb.getD Frame.idF :: pl.1, ?_, ?_, rfl, ?_⟩
  · simp [Chain.xsPoses, hfk]
  · simp [hlen, Chain.nbSegm]
  · intro i hi
    have hr := hrec i hi
    simpa using hr

/-- Witness for C10 on the concrete two-segment chain with joint vector
`[1]`. -/
theorem xs_returns_base_and_cumulative_poses_witness :
    ∃ ps, Chain.xsPoses chainBug [1] none = some ps ∧
      ps.length = chainBug.nbSegm + 1 ∧
      ps.get? 0 = some ((none : Option Frame).getD Frame.idF) ∧
      ∀ i, i < chainBug.nbSegm → ps.get? (i + 1) =
        some ((ps.getD i Frame.idF).comp (segPoseAt chainBug.segments [1] i)) :=
  xs_returns_base_and_cumulative_poses chainBug [1] none (by decide)

theorem idxOf_lt_length (nm : String) :
    ∀ (l : List String), nm ∈ l → idxOf nm l < l.length := by
  intro l
  induction l with
  | nil => intro h; exact absurd h (List.not_mem_nil nm)
  | cons a rest ih =>
    intro h
    simp only [idxOf, List.length_cons]
    by_cases ha : a = nm
    · rw [if_pos ha]; exact Nat.succ_pos _
    · rw [if_neg ha]
      refine Nat.succ_lt_succ (ih ?_)
      rcases List.mem_cons.mp h with h' | h'
      · exact absurd h'.symm ha
      · exact h'

theorem get?_idxOf (nm : String) :
    ∀ (l : List String), nm ∈ l → l.get? (idxOf nm l) = some nm := by
  intro l
  induction l with
  | nil => intro h; exact absurd h (List.not_mem_nil nm)
  | cons a rest ih =>
    intro h
    simp only [idxOf]
    by_cases ha : a = nm
    · rw [if_pos ha]; simp [ha]
    · rw [if_neg ha]
      simp only [List.get?_cons_succ]
      refine ih ?_
      rcases List.mem_cons.mp h with h' | h'
      · exact absurd h'.symm ha
      · exact h'

theorem idxOf_append (nm : String) :
    ∀ (l1 : List String), nm ∈ l1 → ∀ l2, idxOf nm (l1 ++ l2) = idxOf nm l1 := by
  intro l1
  induction l1 with
  | nil => intro h; exact absurd h (List.not_mem_nil nm)
  | cons a rest ih =>
    intro h l2
    simp only [List.cons_append, idxOf]
    by_cases ha : a = nm
    · rw [if_pos ha, if_pos ha]
    · rw [if_neg ha, if_neg ha]
      refine congrArg (· + 1) (ih ?_ l2)
      rcases List.mem_cons.mp h with h' | h'
      · exact absurd h'.symm ha
      · exact h'

theorem idxOf_inj (a b : String) (l : List String) (ha : a ∈ l) (hb : b ∈ l)
    (h : idxOf a l = idxOf b l) : a = b := by
  have h1 := get?_idxOf a l ha
  have h2 := get?_idxOf b l hb
  rw [h] at h1
  exact Option.some.inj (h1.symm.trans h2)

theorem getAll_spec (q : List ℚ) :
    ∀ (idx : List Nat), (∀ i ∈ idx, i < q.length) →
    ∃ qs, getAll q idx = some qs ∧ qs.length = idx.length ∧
      ∀ k, qs.get? k = (idx.get? k).bind q.get? := by
  intro idx
  induction idx with
  | nil => intro _; exact ⟨[], rfl, rfl, fun k => rfl⟩
  | cons i rest ih =>
    intro hb
    have hi : i < q.length := hb i (List.mem_cons_self i rest)
    have hrest : ∀ j ∈ rest, j < q.length := fun j hj => hb j (List.mem_cons_of_mem i hj)
    obtain ⟨qs, hqs, hlen, hget⟩ := ih hrest
    have hv : q[i]? = some q[i] := List.getElem?_eq_getElem hi
    refine ⟨q[i] :: qs, ?_, by simp [hlen], ?_⟩
    · simp [getAll, hv, hqs]
    · intro k
      cases k with
      | zero => simp [List.get?_eq_getElem?, hv]
      | succ k => simpa using hget k

theorem uniqueNames_pair (n1 n2 : String) (c1 c2 : Chain) :
    ChainDict.uniqueNames [(n1, c1), (n2, c2)] =
      c1.names ++ c2.names.filter (fun nm => decide (¬ nm ∈ c1.names)) := by
  simp [ChainDict.uniqueNames]

/-- C4: for a ChainDict of two chains sharing exactly one actuated joint
name `s`, the deduplicated unique-name list has length equal to the sum
of the chains' actuated joint counts minus one, the global position of
`s` is that of its first occurrence (its position inside the first
chain), both chains' index lists point at that same global position for
`s`, and consequently the sub-vectors extracted for both chains (used
verbatim by `ChainDict.xs` and `ChainDict.jacobian`) read `s`'s value
from the same component of the shared joint vector. -/
theorem chaindict_shared_joint_name_single_index
    (n1 n2 : String) (c1 c2 : Chain) (q : List ℚ) (s : String)
    (hs : c2.names.filter (fun nm => decide (nm ∈ c1.names)) = [s])
    (hq : ChainDict.nbJoint [(n1, c1), (n2, c2)] ≤ q.length) :
    ChainDict.nbJoint [(n1, c1), (n2, c2)] =
      c1.names.length + c2.names.length - 1 ∧
    idxOf s (ChainDict.uniqueNames [(n1, c1), (n2, c2)]) = idxOf s c1.names ∧
    (ChainDict.idxList [(n1, c1), (n2, c2)] c1).get? (idxOf s c1.names) =
      some (idxOf s (ChainDict.uniqueNames [(n1, c1), (n2, c2)])) ∧
    (ChainDict.idxList [(n1, c1), (n2, c2)] c2).get? (idxOf s c2.names) =
      some (idxOf s (ChainDict.uniqueNames [(n1, c1), (n2, c2)])) ∧
    (∃ qs1, ChainDict.qChain [(n1, c1), (n2, c2)] c1 q = some qs1 ∧
      qs1.get? (idxOf s c1.names) =
        q.get? (idxOf s (ChainDict.uniqueNames [(n1, c1), (n2, c2)]))) ∧
    (∃ qs2, ChainDict.qChain [(n1, c1), (n2, c2)] c2 q = some qs2 ∧
      qs2.get? (idxOf s c2.names) =
        q.get? (idxOf s (ChainDict.uniqueNames [(n1, c1), (n2, c2)]))) := by
  have hu := uniqueNames_pair n1 n2 c1 c2
  have hsfil : s ∈ c2.names.filter (fun nm => decide (nm ∈ c1.names)) := by
    rw [hs]; exact List.mem_singleton.mpr rfl
  have hsmem2 : s ∈ c2.names := (List.mem_filter.mp hsfil).1
  have hsmem1 : s ∈ c1.names := by
    have := (List.mem_filter.mp hsfil).2
    simpa using this
  have hmem1 : ∀ nm ∈ c1.names, nm ∈ ChainDict.uniqueNames [(n1, c1), (n2, c2)] := by
    intro nm hnm
    rw [hu]
    exact List.mem_append_left _ hnm
  have hmem2 : ∀ nm ∈ c2.names, nm ∈ ChainDict.uniqueNames [(n1, c1), (n2, c2)] := by
    intro nm hnm
    rw [hu]
    by_cases hmm : nm ∈ c1.names
    · exact List.mem_append_left _ hmm
    · refine List.mem_append_right _ ?_
      exact List.mem_filter.mpr ⟨hnm, by simpa using hmm⟩
  have hidx : ∀ c : Chain, (∀ nm ∈ c.names,
        nm ∈ ChainDict.uniqueNames [(n1, c1), (n2, c2)]) →
      ∀ i ∈ ChainDict.idxList [(n1, c1), (n2, c2)] c, i < q.length := by
    intro c hmem i hi
    obtain ⟨nm, hnm, rfl⟩ := List.mem_map.mp hi
    calc idxOf nm (ChainDict.uniqueNames [(n1, c1), (n2, c2)])
        < (ChainDict.uniqueNames [(n1, c1), (n2, c2)]).length :=
          idxOf_lt_length nm _ (hmem nm hnm)
      _ ≤ q.length := hq
  have hfirst : idxOf s (ChainDict.uniqueNames [(n1, c1), (n2, c2)]) =
      idxOf s c1.names := by
    rw [hu]; exact idxOf_append s c1.names hsmem1 _
  have hidxget : ∀ (c : Chain), s ∈ c.names →
      (ChainDict.idxList [(n1, c1), (n2, c2)] c).get? (idxOf s c.names) =
        some (idxOf s (ChainDict.uniqueNames [(n1, c1), (n2, c2)])) := by
    intro c hc
    unfold ChainDict.idxList
    rw [List.get?_map, get?_idxOf s c.names hc, Option.map_some']
  refine ⟨?_, hfirst, hidxget c1 hsmem1, hidxget c2 hsmem2, ?_, ?_⟩
  · rw [ChainDict.nbJoint, hu, List.length_append]
    have hsplit := List.length_eq_length_filter_add
      (l := c2.names) (fun nm => decide (nm ∈ c1.names))
    rw [hs] at hsplit
    have hpred : (fun nm => decide (¬ nm ∈ c1.names)) =
        (fun nm => !(decide (nm ∈ c1.names))) := by
      funext nm; exact decide_not
    rw [hpred]
    simp only [List.length_singleton] at hsplit
    omega
  · obtain ⟨qs1, hqs1, _, hget1⟩ := getAll_spec q _ (hidx c1 hmem1)
    refine ⟨qs1, hqs1, ?_⟩
    rw [hget1 (idxOf s c1.names), hidxget c1 hsmem1, Option.some_bind]
  · obtain ⟨qs2, hqs2, _, hget2⟩ := getAll_spec q _ (hidx c2 hmem2)
    refine ⟨qs2, hqs2, ?_⟩
    rw [hget2 (idxOf s c2.names), hidxget c2 hsmem2, Option.some_bind]

/-- Witness for C4 on the concrete two-chain dictionary with joint names
`[a, b]` and `[b, c]` sharing exactly `b`, and the shared joint vector
`[1, 2, 3]`. -/
theorem chaindict_shared_joint_name_single_index_witness :
    ChainDict.nbJoint [("u", chainAB), ("v", chainBC)] =
      chainAB.names.length + chainBC.names.length - 1 ∧
    idxOf "b" (ChainDict.uniqueNames [("u", chainAB), ("v", chainBC)]) =
      idxOf "b" chainAB.names ∧
    (ChainDict.idxList [("u", chainAB), ("v", chainBC)] chainAB).get?
        (idxOf "b" chainAB.names) =
      some (idxOf "b" (ChainDict.uniqueNames [("u", chainAB), ("v", chainBC)])) ∧
    (ChainDict.idxList [("u", chainAB), ("v", chainBC)] chainBC).get?
        (idxOf "b" chainBC.names) =
      some (idxOf "b" (ChainDict.uniqueNames [("u", chainAB), ("v", chainBC)])) ∧
    (∃ qs1, ChainDict.qChain [("u", chainAB), ("v", chainBC)] chainAB [1, 2, 3] =
        some qs1 ∧
      qs1.get? (idxOf "b" chainAB.names) =
        List.get? [1, 2, 3]
          (idxOf "b" (ChainDict.uniqueNames [("u", chainAB), ("v", chainBC)]))) ∧
    (∃ qs2, ChainDict.qChain [("u", chainAB), ("v", chainBC)] chainBC [1, 2, 3] =
        some qs2 ∧
      qs2.get? (idxOf "b" chainBC.names) =
        List.get? [1, 2, 3]
          (idxOf "b" (ChainDict.uniqueNames [("u", chainAB), ("v", chainBC)]))) :=
  chaindict_shared_joint_name_single_index "u" "v" chainAB chainBC [1, 2, 3] "b"
    (by decide) (by decide)

theorem get?_some_lt {α : Type} (l : List α) (n : Nat) (a : α)
    (h : l.get? n = some a) : n < l.length := by
  by_contra hc
  rw [List.get?_eq_getElem?, List.getElem?_eq_none (Nat.le_of_not_lt hc)] at h
  exact absurd h (by simp)

theorem uniqFold_mono :
    ∀ (l : List (String × Chain)) (acc : List String) (a : String), a ∈ acc →
      a ∈ l.foldl
        (fun acc nc => acc ++ nc.2.names.filter (fun nm => decide (¬ nm ∈ acc))) acc := by
  intro l
  induction l with
  | nil => intro acc a ha; simpa using ha
  | cons nc l ih =>
    intro acc a ha
    simp only [List.foldl_cons]
    exact ih _ a (List.mem_append_left _ ha)

theorem uniqFold_mem_names :
    ∀ (l : List (String × Chain)) (acc : List String) (nc : String × Chain),
      nc ∈ l → ∀ nm ∈ nc.2.names,
      nm ∈ l.foldl
        (fun acc nc => acc ++ nc.2.names.filter (fun nm => decide (¬ nm ∈ acc))) acc := by
  intro l
  induction l with
  | nil => intro acc nc h; exact absurd h (List.not_mem_nil nc)
  | cons a l ih =>
    intro acc nc hnc nm hnm
    simp only [List.foldl_cons]
    rcases List.mem_cons.mp hnc with h | h
    · subst h
      by_cases hm : nm ∈ acc
      · exact uniqFold_mono l _ nm (List.mem_append_left _ hm)
      · refine uniqFold_mono l _ nm (List.mem_append_right _ ?_)
        exact List.mem_filter.mpr ⟨hnm, by simpa using hm⟩
    · exact ih _ nc h nm hnm

theorem mem_uniqueNames (d : ChainDict) (nc : String × Chain) (hnc : nc ∈ d)
    (nm : String) (hnm : nm ∈ nc.2.names) : nm ∈ d.uniqueNames :=
  uniqFold_mem_names d [] nc hnc nm hnm

theorem mapOpt_some {α β : Type} (f : α → Option β) :
    ∀ (l : List α) (out : List β), mapOpt l f = some out →
      out.length = l.length ∧ ∀ k, out.get? k = (l.get? k).bind f := by
  intro l
  induction l with
  | nil =>
    intro out h
    simp only [mapOpt] at h
    obtain rfl := Option.some.inj h
    exact ⟨rfl, fun k => rfl⟩
  | cons a l ih =>
    intro out h
    simp only [mapOpt] at h
    cases hfa : f a with
    | none =>
      cases hml : mapOpt l f <;> simp only [hfa, hml] at h <;>
        exact absurd h (by simp)
    | some b =>
      cases hml : mapOpt l f with
      | none =>
        simp only [hfa, hml] at h
        exact absurd h (by simp)
      | some bs =>
        simp only [hfa, hml] at h
        obtain rfl := Option.some.inj h
        obtain ⟨hl, hg⟩ := ih bs hml
        refine ⟨by simp [hl], ?_⟩
        intro k
        cases k with
        | zero => simp [hfa]
        | succ k => simpa using hg k

theorem guarded_length (jac : List Twist) (d : Vec3) :
    (if jac.isEmpty then jac
     else jac.map (fun col => col.refPoint d)).length = jac.length := by
  cases jac <;> simp

theorem jacLoop_length :
    ∀ (segs : List Segment) (t : Frame) (q : List ℚ) (acc jac : List Twist)
      (tot : Frame), jacLoop segs t q acc = some (jac, tot) →
      jac.length = acc.length + nbActList segs := by
  intro segs
  induction segs with
  | nil =>
    intro t q acc jac tot h
    simp only [jacLoop, Option.some.injEq, Prod.mk.injEq] at h
    rw [← h.1]
    simp [nbActList]
  | cons s rest ih =>
    intro t q acc jac tot h
    rw [nbActList_cons]
    simp only [jacLoop] at h
    cases hb : s.isActuated with
    | true =>
      simp only [hb, if_true] at h
      cases q with
      | nil => exact absurd h (by simp)
      | cons qi q' =>
        have hlen := ih _ _ _ _ _ h
        rw [hlen, List.length_append, guarded_length]
        simp
        omega
    | false =>
      simp only [hb, Bool.false_eq_true, if_false] at h
      have hlen := ih _ _ _ _ _ h
      rw [hlen, guarded_length]
      simp

theorem names_length (c : Chain) : c.names.length = nbActList c.segments := by
  simp [Chain.names, nbActList]

theorem idxList_length (d : ChainDict) (c : Chain) :
    (d.idxList c).length = c.names.length := by
  simp [ChainDict.idxList]

theorem idxList_nodup (d : ChainDict) (c : Chain)
    (h : ∀ nm ∈ c.names, nm ∈ d.uniqueNames) (hn : c.names.Nodup) :
    (d.idxList c).Nodup :=
  List.Nodup.map_on
    (fun x hx y hy hf => idxOf_inj x y _ (h x hx) (h y hy) hf) hn

theorem assembleCols_length :
    ∀ (ps : List (Nat × List ℚ)) (acc : List (List ℚ)),
      (assembleCols acc ps).length = acc.length := by
  intro ps
  induction ps with
  | nil => intro acc; rfl
  | cons p rest ih =>
    intro acc
    obtain ⟨i, col⟩ := p
    rw [assembleCols, ih, List.length_set]

theorem assembleCols_get?_not_mem :
    ∀ (ps : List (Nat × List ℚ)) (acc : List (List ℚ)) (i : Nat),
      i ∉ ps.map Prod.fst → (assembleCols acc ps).get? i = acc.get? i := by
  intro ps
  induction ps with
  | nil => intro acc i _; rfl
  | cons p rest ih =>
    intro acc i hi
    obtain ⟨i', col⟩ := p
    simp only [List.map_cons, List.mem_cons, not_or] at hi
    rw [assembleCols, ih _ i hi.2]
    exact List.get?_set_ne col acc (fun hc => hi.1 hc.symm)

theorem assembleCols_append :
    ∀ (l1 l2 : List (Nat × List ℚ)) (acc : List (List ℚ)),
      assembleCols acc (l1 ++ l2) = assembleCols (assembleCols acc l1) l2 := by
  intro l1
  induction l1 with
  | nil => intro l2 acc; rfl
  | cons p rest ih =>
    intro l2 acc
    obtain ⟨i, col⟩ := p
    rw [List.cons_append, assembleCols, assembleCols, ih]

theorem assembleCols_get?_hit (ps1 ps2 : List (Nat × List ℚ))
    (acc : List (List ℚ)) (i : Nat) (col : List ℚ)
    (hlen : i < acc.length) (hni : i ∉ ps2.map Prod.fst) :
    (assembleCols acc (ps1 ++ (i, col) :: ps2)).get? i = some col := by
  rw [assembleCols_append]
  show (assembleCols ((assembleCols acc ps1).set i col) ps2).get? i = some col
  rw [assembleCols_get?_not_mem ps2 _ i hni]
  exact List.get?_set_eq_of_lt col (by rw [assembleCols_length]; exact hlen)

theorem nodup_get?_not_mem_drop (l : List Nat) (j i : Nat)
    (hn : l.Nodup) (h : l.get? j = some i) : i ∉ l.drop (j + 1) := by
  have hj : j < l.length := get?_some_lt l j i h
  have hlj : l[j] = i := by
    rw [List.get?_eq_getElem?, List.getElem?_eq_getElem hj] at h
    exact Option.some.inj h
  have hdec : l = l.take j ++ l[j] :: l.drop (j + 1) := by
    rw [← List.drop_eq_getElem_cons hj, List.take_append_drop]
  rw [hdec] at hn
  have h2 := (List.nodup_cons.mp hn.of_append_right).1
  rwa [hlj] at h2

theorem assembleZip_get? (idx : List Nat) (cols : List (List ℚ))
    (acc : List (List ℚ)) (hlen : idx.length = cols.length)
    (hnodup : idx.Nodup) (j i : Nat) (col : List ℚ)
    (hij : idx.get? j = some i) (hcj : cols.get? j = some col)
    (hacc : i < acc.length) :
    (assembleCols acc (idx.zip cols)).get? i = some col := by
  have hji : j < idx.length := get?_some_lt idx j i hij
  have hjc : j < cols.length := get?_some_lt cols j col hcj
  have hjp : j < (idx.zip cols).length := by
    rw [List.length_zip]
    exact lt_min hji hjc
  have hidxj : idx[j] = i := by
    rw [List.get?_eq_getElem?, List.getElem?_eq_getElem hji] at hij
    exact Option.some.inj hij
  have hcolj : cols[j] = col := by
    rw [List.get?_eq_getElem?, List.getElem?_eq_getElem hjc] at hcj
    exact Option.some.inj hcj
  have hdrop : (idx.zip cols).drop j = (i, col) :: (idx.zip cols).drop (j + 1) := by
    rw [List.drop_eq_getElem_cons hjp, List.getElem_zip, hidxj, hcolj]
  have hdec : idx.zip cols =
      (idx.zip cols).take j ++ (i, col) :: (idx.zip cols).drop (j + 1) := by
    rw [← hdrop, List.take_append_drop]
  rw [hdec]
  refine assembleCols_get?_hit _ _ acc i col hacc ?_
  rw [List.map_drop, List.map_fst_zip idx cols (le_of_eq hlen)]
  exact nodup_get?_not_mem_drop idx j i hnodup hij

/-- C3: when `ChainDict.jacobian` with no chain name selected returns,
it returns one matrix per chain (in dictionary order, under the chain's
name); each matrix has exactly `len(uniqueJointNames)` columns; for a
chain whose actuated names are distinct, the column at the global index
of the chain's `j`-th actuated joint name equals column `j` of that
chain's own Jacobian, and every column at a global index the chain does
not own is exactly the zero column. -/
theorem chaindict_jacobian_zero_padded_assembly
    (d : ChainDict) (q : List ℚ) (fb : Option Frame)
    (out : List (String × List (List ℚ)))
    (hout : d.jacobianAll q 0 fb = some out) :
    out.length = d.length ∧
    ∀ (k : Nat) (name : String) (c : Chain), d.get? k = some (name, c) →
      ∃ qs cols, d.qChain c q = some qs ∧
        Chain.jacobianCols c qs 0 FkLayout.xm fb = some cols ∧
        out.get? k = some (name, d.assembledJac c cols) ∧
        (d.assembledJac c cols).length = d.nbJoint ∧
        cols.length = c.names.length ∧
        (c.names.Nodup →
          (∀ (j : Nat) (nm : String), c.names.get? j = some nm →
            (d.assembledJac c cols).get? (idxOf nm d.uniqueNames) = cols.get? j) ∧
          (∀ i, i < d.nbJoint → i ∉ d.idxList c →
            (d.assembledJac c cols).get? i =
              some (zerosLike (cols.headD [])))) := by
  obtain ⟨hlen, hget⟩ := mapOpt_some _ d out hout
  refine ⟨hlen, ?_⟩
  intro k name c hk
  have hksome : ∃ v, out.get? k = some v := by
    have hk' : k < out.length := by
      rw [hlen]; exact get?_some_lt d k (name, c) hk
    rw [List.get?_eq_getElem?]
    exact ⟨_, List.getElem?_eq_getElem hk'⟩
  obtain ⟨v, hv⟩ := hksome
  have hf := hget k
  rw [hk, Option.some_bind, hv] at hf
  cases hqs : d.qChain c q with
  | none =>
    rw [hqs, Option.none_bind] at hf
    exact absurd hf (by simp)
  | some qs =>
    rw [hqs, Option.some_bind] at hf
    cases hcols : Chain.jacobianCols c qs 0 FkLayout.xm fb with
    | none =>
      rw [hcols] at hf
      exact absurd hf (by simp)
    | some cols =>
      rw [hcols, Option.map_some'] at hf
      have hvv : v = (name, d.assembledJac c cols) := Option.some.inj hf
      have hmemc : (name, c) ∈ d := List.get?_mem hk
      have hnames_mem : ∀ nm ∈ c.names, nm ∈ d.uniqueNames :=
        fun nm hnm => mem_uniqueNames d (name, c) hmemc nm hnm
      have hcolslen : cols.length = c.names.length := by
        unfold Chain.jacobianCols at hcols
        cases hl : jacLoop (c.segments.take (c.nbSegm - 0)) (fb.getD Frame.idF)
            qs [] with
        | none =>
          rw [hl, Option.none_bind] at hcols
          exact absurd hcols (by simp)
        | some jt =>
          rw [hl, Option.some_bind] at hcols
          obtain ⟨jac, tot⟩ := jt
          cases jac with
          | nil => exact absurd hcols (by simp)
          | cons t ts =>
            have hjl := jacLoop_length _ _ _ _ _ _ hl
            have htake : c.segments.take (c.nbSegm - 0) = c.segments := by
              simp [Chain.nbSegm]
            rw [htake] at hjl
            have hcc : (t :: ts).map
                (fun tw => tw.dxMat tot.m false) = cols := by
              simpa using hcols
            rw [← hcc, List.length_map, hjl, names_length]
            simp
      have hidxlen : (d.idxList c).length = cols.length := by
        rw [idxList_length, hcolslen]
      refine ⟨qs, cols, rfl, hcols, ?_, ?_, hcolslen, ?_⟩
      · rw [hv, hvv]
      · unfold ChainDict.assembledJac
        rw [assembleCols_length, List.length_replicate, ChainDict.nbJoint]
      · intro hnodup
        have hidxnodup := idxList_nodup d c hnames_mem hnodup
        constructor
        · intro j nm hnm
          have hnm_mem : nm ∈ c.names := List.get?_mem hnm
          have hij : (d.idxList c).get? j = some (idxOf nm d.uniqueNames) := by
            unfold ChainDict.idxList
            rw [List.get?_map, hnm, Option.map_some']
          have hjc : j < cols.length := by
            rw [hcolslen]; exact get?_some_lt _ _ _ hnm
          obtain ⟨col, hcol⟩ : ∃ col, cols.get? j = some col := by
            rw [List.get?_eq_getElem?]
            exact ⟨_, List.getElem?_eq_getElem hjc⟩
          rw [hcol]
          unfold ChainDict.assembledJac
          refine assembleZip_get? _ _ _ hidxlen hidxnodup j _ col hij hcol ?_
          rw [List.length_replicate]
          exact idxOf_lt_length nm _ (hnames_mem nm hnm_mem)
        · intro i hi hni
          unfold ChainDict.assembledJac
          rw [assembleCols_get?_not_mem]
          · simp only [List.get?_eq_getElem?, List.getElem?_replicate]
            rw [if_pos hi]
          · rw [List.map_fst_zip _ _ (le_of_eq hidxlen)]
            exact hni

/-- Witness for C3 on the concrete two-chain dictionary and the shared
joint vector `[1, 2, 3]`: the assembly succeeds and returns one matrix
per chain. -/
theorem chaindict_jacobian_zero_padded_assembly_witness :
    ∃ out, ChainDict.jacobianAll dictShared [1, 2, 3] 0 none = some out ∧
      out.length = dictShared.length := by
  have h : (ChainDict.jacobianAll dictShared [1, 2, 3] 0 none).isSome = true := rfl
  obtain ⟨out, hout⟩ := Option.isSome_iff_exists.mp h
  exact ⟨out, hout,
    (chaindict_jacobian_zero_padded_assembly dictShared [1, 2, 3] none out hout).1⟩

end TfRl
